import Mathlib

/-!
Verification of the cint width-tracked bit-field library.

The Rust type Dynamic holds a pair (val : u8, bits : u8) where bits is the
number of significant low-order bits of val.  We embed u8 values as Nat with
explicit reductions modulo 256 wherever the 8-bit backing store wraps, and
u64 values with explicit reductions modulo 2^64.  Every fallible operation
(a Rust assert or panic, a debug-mode overflowing shift, or a division by
zero) is modelled as an Option returning none on the failing paths.
u8 subtraction inside sign_extend is modelled with wrapping semantics
modulo 256, the release-mode behaviour that the surrounding algebra relies
on for two's-complement reinterpretation.
-/

namespace Cint

structure Dynamic where
  val : Nat
  bits : Nat
deriving DecidableEq, Repr

/-- Fueled floor base-2 logarithm.  With fuel 8 this computes u8::ilog2
exactly on every value below 256 (structural recursion keeps it reducible
inside the kernel). -/
def log2Fuel : Nat → Nat → Nat
  | 0, _ => 0
  | fuel + 1, v => if 2 ≤ v then log2Fuel fuel (v / 2) + 1 else 0

/-- u8::ilog2 for nonzero values below 256. -/
def u8log2 (v : Nat) : Nat := log2Fuel 8 v

/-- Number of significant bits of a u8 value (0 for 0). -/
def bitLen (v : Nat) : Nat := if v = 0 then 0 else u8log2 v + 1

/-- u8 leading_zeros: 8 minus the bit length, for values below 256. -/
def leadingZeros8 (v : Nat) : Nat := 8 - bitLen v

/-- Dynamic::new: asserts 1 <= bits <= 8 and that the highest set bit of
val lies below bits (8 - leading_zeros <= bits). -/
def Dynamic.new (val bits : Nat) : Option Dynamic :=
  if 1 ≤ bits ∧ bits ≤ 8 ∧ 8 - leadingZeros8 val ≤ bits then
    some ⟨val, bits⟩
  else
    none

/-- Dynamic::ones: ((1u16 << count) - 1) as u8, passed to new.  A shift
amount of 16 or more overflows the u16 shift (debug panic). -/
def Dynamic.ones (count : Nat) : Option Dynamic :=
  if 16 ≤ count then none
  else Dynamic.new (((1 <<< count) - 1) % 256) count

/-- The BitAnd<u8> impl: val & rhs, width unchanged. -/
def Dynamic.bitand_u8 (d : Dynamic) (rhs : Nat) : Dynamic :=
  ⟨d.val &&& rhs, d.bits⟩

/-- Dynamic::truncate: ones(bits) & val via the BitAnd<u8> impl. -/
def Dynamic.truncate (val bits : Nat) : Option Dynamic :=
  (Dynamic.ones bits).map fun o => o.bitand_u8 val

/-- The Not impl: complement the 8 backing bits, then truncate. -/
def Dynamic.not (d : Dynamic) : Option Dynamic :=
  Dynamic.truncate (d.val ^^^ 255) d.bits

/-- The BitAnd impl for two Dynamic values: min width. -/
def Dynamic.bitand (a b : Dynamic) : Dynamic :=
  ⟨a.val &&& b.val, min a.bits b.bits⟩

/-- The BitOr impl: max width. -/
def Dynamic.bitor (a b : Dynamic) : Dynamic :=
  ⟨a.val ||| b.val, max a.bits b.bits⟩

/-- The Sub impl: asserts equal widths, wrapping u8 subtraction, truncate. -/
def Dynamic.sub (a b : Dynamic) : Option Dynamic :=
  if a.bits = b.bits then
    Dynamic.truncate ((a.val + 256 - b.val) % 256) a.bits
  else
    none

/-- Dynamic::sign_extend: asserts 1 <= new_bits <= 8 and bits <= new_bits;
flips the sign bit with xor, subtracts the sign-bit mask (wrapping mod 256),
then truncates to the new width. -/
def Dynamic.sign_extend (d : Dynamic) (new_bits : Nat) : Option Dynamic :=
  if 1 ≤ new_bits ∧ new_bits ≤ 8 ∧ d.bits ≤ new_bits then
    Dynamic.truncate (((d.val ^^^ (1 <<< (d.bits - 1))) + 256 - (1 <<< (d.bits - 1))) % 256)
      new_bits
  else
    none

/-- Dynamic::zero_extend: asserts only bits <= new_bits; keeps the
magnitude and installs the new width directly. -/
def Dynamic.zero_extend (d : Dynamic) (new_bits : Nat) : Option Dynamic :=
  if d.bits ≤ new_bits then some ⟨d.val, new_bits⟩ else none

/-- Dynamic::concat: (self.val << rhs.bits) | rhs.val with width the sum,
validated by new.  The u8 shift overflows (debug panic) when rhs.bits is 8
or more; shifted-out value bits wrap modulo 256. -/
def Dynamic.concat (a b : Dynamic) : Option Dynamic :=
  if 8 ≤ b.bits then none
  else Dynamic.new (((a.val <<< b.bits) % 256) ||| b.val) (a.bits + b.bits)

/-- Dynamic::highest_set_bit: u8::ilog2, which panics on zero. -/
def Dynamic.highest_set_bit (d : Dynamic) : Option Nat :=
  if d.val = 0 then none else some (u8log2 d.val)

/-- Dynamic::rotate_right: reduce the amount modulo the width (panics by
division by zero if the width is 0), shift right by it, or with the left
shift by (bits - amount) % 8 (wrapping modulo the u8 backing store), and
truncate to the width.  The u8 right shift overflows when the reduced
amount reaches 8, which only happens for widths above 8. -/
def Dynamic.rotate_right (d : Dynamic) (len : Nat) : Option Dynamic :=
  if d.bits = 0 then none
  else
    if 8 ≤ len % d.bits then none
    else
      Dynamic.truncate
        ((d.val >>> (len % d.bits)) |||
          ((d.val <<< ((d.bits - len % d.bits) % 8)) % 256))
        d.bits

/-- The loop of replicate: count - 1 iterations of val |= val << shift in
u64 arithmetic. -/
def replicateLoop (shift : Nat) : Nat → Nat → Nat
  | acc, 0 => acc
  | acc, Nat.succ i => replicateLoop shift (acc ||| ((acc <<< shift) % 2 ^ 64)) i

/-- replicate: widen the magnitude to u64 and OR in count - 1 shifted
copies.  The u64 shift overflows (debug panic) when the width reaches 64
and the loop actually runs. -/
def replicate (val : Dynamic) (count : Nat) : Option Nat :=
  if 2 ≤ count ∧ 64 ≤ val.bits then none
  else some (replicateLoop val.bits val.val (count - 1))

/-- The invariants of a live Dynamic value: width in [1, 8] and no set bit
of the magnitude at or above the width. -/
def Inv (d : Dynamic) : Prop := 1 ≤ d.bits ∧ d.bits ≤ 8 ∧ d.val < 2 ^ d.bits

instance (d : Dynamic) : Decidable (Inv d) := by
  unfold Inv; infer_instance

/-- The decode_bitmask function of the integration test, step by step:
every assert, panic and fallible library call is threaded through Option. -/
def decode_bitmask (imm_n imms immr : Dynamic) (immediate : Bool) (m : Nat) :
    Option (Nat × Nat) := do
  if imm_n.bits ≠ 1 then none
  else if imms.bits ≠ 6 then none
  else if immr.bits ≠ 6 then none
  else
    let notImms ← imms.not
    let concatenated ← imm_n.concat notImms
    let len ← concatenated.highest_set_bit
    if len < 1 then none
    else if 8 ≤ len then none
    else if m < (1 <<< len) % 256 then none
    else
      let onesLen ← Dynamic.ones len
      let levels ← onesLen.zero_extend 6
      if immediate ∧ imms.bitand levels = levels then none
      else
        let s := imms.bitand levels
        let r := immr.bitand levels
        let diff ← s.sub r
        let esize := (1 <<< len) % 256
        let onesLen2 ← Dynamic.ones len
        let _d := diff.bitand onesLen2
        let onesS ← Dynamic.ones (s.val + 1)
        let welem ← onesS.zero_extend esize
        let onesR ← Dynamic.ones (r.val + 1)
        let telem ← onesR.zero_extend esize
        if esize = 0 then none
        else
          let rotated ← welem.rotate_right r.val
          let wmask ← replicate rotated (m / esize)
          let tmask ← replicate telem (m / esize)
          some (wmask, tmask)

/-- The tiling that claim C9 describes: the bitwise OR of the magnitude
shifted left by i * width for i below count. -/
def specTiling (v w : Nat) : Nat → Nat
  | 0 => 0
  | Nat.succ k => specTiling v w k ||| (v <<< (k * w))

/-! ### Helper lemmas about the constructors -/

set_option maxRecDepth 100000 in
theorem bitLen_le_iff8 : ∀ v < 256, ∀ w < 9, (bitLen v ≤ w ↔ v < 2 ^ w) := by decide

set_option maxRecDepth 100000 in
theorem bitLen_le8 : ∀ v < 256, bitLen v ≤ 8 := by decide

theorem new_eq (v w : Nat) (hv : v < 256) :
    Dynamic.new v w = if 1 ≤ w ∧ w ≤ 8 ∧ v < 2 ^ w then some ⟨v, w⟩ else none := by
  have h8 : bitLen v ≤ 8 := bitLen_le8 v hv
  have hlz : 8 - leadingZeros8 v = bitLen v := by
    unfold leadingZeros8; omega
  unfold Dynamic.new
  rw [hlz]
  rcases Nat.lt_or_ge w 9 with h9 | h9
  · have hiff := bitLen_le_iff8 v hv w h9
    by_cases hc : 1 ≤ w ∧ w ≤ 8 ∧ v < 2 ^ w
    · rw [if_pos ⟨hc.1, hc.2.1, hiff.mpr hc.2.2⟩, if_pos hc]
    · rw [if_neg fun hk => hc ⟨hk.1, hk.2.1, hiff.mp hk.2.2⟩, if_neg hc]
  · rw [if_neg (by omega), if_neg (by omega)]

theorem new_inv (v w : Nat) (hv : v < 256) (d : Dynamic)
    (h : Dynamic.new v w = some d) : Inv d ∧ d = ⟨v, w⟩ := by
  rw [new_eq v w hv] at h
  split at h
  · cases h
    exact ⟨‹_›, rfl⟩
  · cases h

theorem ones_eq (w : Nat) :
    Dynamic.ones w = if 1 ≤ w ∧ w ≤ 8 then some ⟨2 ^ w - 1, w⟩ else none := by
  unfold Dynamic.ones
  rcases Nat.lt_or_ge w 16 with h16 | h16
  · rw [if_neg (by omega)]
    have hlt : 2 ^ w - 1 < 2 ^ w := by
      have := Nat.two_pow_pos w; omega
    rcases Nat.lt_or_ge 8 w with h8 | h8
    · rw [if_neg (by omega)]
      unfold Dynamic.new
      rw [if_neg (by omega)]
    · have hv : (1 <<< w - 1) % 256 = 2 ^ w - 1 := by
        rw [Nat.shiftLeft_eq, one_mul, Nat.mod_eq_of_lt]
        have : (2 : Nat) ^ w ≤ 2 ^ 8 := Nat.pow_le_pow_right (by omega) h8
        omega
      rw [hv,
        new_eq _ _ (by have : (2:Nat)^w ≤ 2^8 := Nat.pow_le_pow_right (by omega) h8; omega)]
      by_cases h1 : 1 ≤ w
      · rw [if_pos ⟨h1, h8, hlt⟩, if_pos ⟨h1, h8⟩]
      · rw [if_neg (by omega), if_neg (by omega)]
  · rw [if_pos h16, if_neg (by omega)]

theorem truncate_eq (v w : Nat) :
    Dynamic.truncate v w =
      if 1 ≤ w ∧ w ≤ 8 then some ⟨(2 ^ w - 1) &&& v, w⟩ else none := by
  unfold Dynamic.truncate
  rw [ones_eq]
  split
  · rfl
  · rfl

theorem truncate_eq_mod (v w : Nat) (h1 : 1 ≤ w) (h8 : w ≤ 8) :
    Dynamic.truncate v w = some ⟨v % 2 ^ w, w⟩ := by
  rw [truncate_eq, if_pos ⟨h1, h8⟩, Nat.and_comm, Nat.and_pow_two_sub_one_eq_mod]

theorem truncate_inv (v w : Nat) (d : Dynamic)
    (h : Dynamic.truncate v w = some d) : Inv d := by
  rw [truncate_eq] at h
  split at h
  · cases h
    refine ⟨‹1 ≤ w ∧ w ≤ 8›.1, ‹1 ≤ w ∧ w ≤ 8›.2, ?_⟩
    show (2 ^ w - 1) &&& v < 2 ^ w
    rw [Nat.and_comm]
    exact Nat.and_lt_two_pow v (by have := Nat.two_pow_pos w; omega)
  · cases h

theorem truncate_fail (v w : Nat) (h : w = 0 ∨ 9 ≤ w) :
    Dynamic.truncate v w = none := by
  rw [truncate_eq, if_neg (by omega)]

/-! ### Helper lemmas: invariant preservation -/

theorem ones_inv (w : Nat) (d : Dynamic) (h : Dynamic.ones w = some d) : Inv d := by
  rw [ones_eq] at h
  split at h
  · cases h
    refine ⟨‹1 ≤ w ∧ w ≤ 8›.1, ‹1 ≤ w ∧ w ≤ 8›.2, ?_⟩
    show 2 ^ w - 1 < 2 ^ w
    have := Nat.two_pow_pos w
    omega
  · cases h

theorem not_inv (a : Dynamic) (d : Dynamic) (h : Dynamic.not a = some d) : Inv d :=
  truncate_inv _ _ d h

theorem bitand_inv (a b : Dynamic) (ha : Inv a) (hb : Inv b) :
    Inv (Dynamic.bitand a b) := by
  obtain ⟨ha1, ha8, hav⟩ := ha
  obtain ⟨hb1, hb8, hbv⟩ := hb
  refine ⟨?_, ?_, ?_⟩
  · show 1 ≤ min a.bits b.bits
    omega
  · show min a.bits b.bits ≤ 8
    omega
  · show a.val &&& b.val < 2 ^ min a.bits b.bits
    rcases Nat.le_total a.bits b.bits with hmin | hmin
    · rw [Nat.min_eq_left hmin, Nat.and_comm]
      exact Nat.and_lt_two_pow b.val hav
    · rw [Nat.min_eq_right hmin]
      exact Nat.and_lt_two_pow a.val hbv

theorem bitand_u8_inv (a : Dynamic) (r : Nat) (ha : Inv a) :
    Inv (Dynamic.bitand_u8 a r) := by
  obtain ⟨ha1, ha8, hav⟩ := ha
  refine ⟨ha1, ha8, ?_⟩
  show a.val &&& r < 2 ^ a.bits
  rw [Nat.and_comm]
  exact Nat.and_lt_two_pow r hav

theorem bitor_inv (a b : Dynamic) (ha : Inv a) (hb : Inv b) :
    Inv (Dynamic.bitor a b) := by
  obtain ⟨ha1, ha8, hav⟩ := ha
  obtain ⟨hb1, hb8, hbv⟩ := hb
  refine ⟨?_, ?_, ?_⟩
  · show 1 ≤ max a.bits b.bits
    omega
  · show max a.bits b.bits ≤ 8
    omega
  · show a.val ||| b.val < 2 ^ max a.bits b.bits
    have h1 : (2:Nat) ^ a.bits ≤ 2 ^ max a.bits b.bits :=
      Nat.pow_le_pow_right (by norm_num) (Nat.le_max_left _ _)
    have h2 : (2:Nat) ^ b.bits ≤ 2 ^ max a.bits b.bits :=
      Nat.pow_le_pow_right (by norm_num) (Nat.le_max_right _ _)
    exact Nat.or_lt_two_pow (by omega) (by omega)

theorem sub_inv (a b : Dynamic) (d : Dynamic) (h : Dynamic.sub a b = some d) :
    Inv d := by
  unfold Dynamic.sub at h
  split at h
  · exact truncate_inv _ _ d h
  · cases h

theorem sign_extend_inv (a : Dynamic) (nw : Nat) (d : Dynamic)
    (h : Dynamic.sign_extend a nw = some d) : Inv d := by
  unfold Dynamic.sign_extend at h
  split at h
  · exact truncate_inv _ _ d h
  · cases h

theorem zero_extend_inv (a : Dynamic) (nw : Nat) (ha : Inv a) (h8 : nw ≤ 8)
    (d : Dynamic) (h : Dynamic.zero_extend a nw = some d) : Inv d := by
  obtain ⟨ha1, ha8, hav⟩ := ha
  unfold Dynamic.zero_extend at h
  split at h
  · cases h
    refine ⟨?_, ?_, ?_⟩
    · show 1 ≤ nw
      omega
    · show nw ≤ 8
      exact h8
    · show a.val < 2 ^ nw
      have : (2:Nat) ^ a.bits ≤ 2 ^ nw := Nat.pow_le_pow_right (by norm_num) ‹a.bits ≤ nw›
      omega
  · cases h

theorem concat_inv (a b : Dynamic) (_ha : Inv a) (hb : Inv b) (d : Dynamic)
    (h : Dynamic.concat a b = some d) : Inv d := by
  obtain ⟨hb1, hb8, hbv⟩ := hb
  unfold Dynamic.concat at h
  split at h
  · cases h
  · have hlt : ((a.val <<< b.bits) % 256) ||| b.val < 256 := by
      have h1 : (a.val <<< b.bits) % 256 < 2 ^ 8 := Nat.mod_lt _ (by norm_num)
      have h2 : b.val < 2 ^ 8 := by
        have : (2:Nat) ^ b.bits ≤ 2 ^ 8 := Nat.pow_le_pow_right (by norm_num) hb8
        omega
      exact Nat.or_lt_two_pow h1 h2
    exact (new_inv _ _ hlt d h).1

theorem rotate_right_inv (a : Dynamic) (n : Nat) (d : Dynamic)
    (h : Dynamic.rotate_right a n = some d) : Inv d := by
  unfold Dynamic.rotate_right at h
  split at h
  · cases h
  · split at h
    · cases h
    · exact truncate_inv _ _ d h

/-! ### Bitwise helper lemmas for replicate -/

theorem lor_shiftLeft (a b n : Nat) : (a ||| b) <<< n = (a <<< n) ||| (b <<< n) := by
  apply Nat.eq_of_testBit_eq
  intro i
  simp [Nat.testBit_shiftLeft, Nat.testBit_or, Bool.and_or_distrib_left]

theorem lor_mod_two_pow (a b k : Nat) :
    (a ||| b) % 2 ^ k = (a % 2 ^ k) ||| (b % 2 ^ k) := by
  apply Nat.eq_of_testBit_eq
  intro i
  simp [Nat.testBit_mod_two_pow, Nat.testBit_or, Bool.and_or_distrib_left]

theorem shiftLeft_mod_mod (a w k : Nat) :
    ((a % 2 ^ k) <<< w) % 2 ^ k = (a <<< w) % 2 ^ k := by
  rw [Nat.shiftLeft_eq, Nat.shiftLeft_eq, Nat.mod_mul_mod]

/-! ### specTiling lemmas -/

theorem specTiling_one (v w : Nat) : specTiling v w 1 = v := by
  show specTiling v w 0 ||| v <<< (0 * w) = v
  simp [specTiling]

theorem specTiling_prepend (v w : Nat) :
    ∀ j, specTiling v w (j + 1) = v ||| (specTiling v w j) <<< w := by
  intro j
  induction j with
  | zero => simp [specTiling]
  | succ j ih =>
      show specTiling v w (j + 1) ||| v <<< ((j + 1) * w) =
        v ||| specTiling v w (j + 1) <<< w
      conv_rhs => rw [show specTiling v w (j + 1) =
        specTiling v w j ||| v <<< (j * w) from rfl]
      conv_lhs => rw [ih]
      rw [lor_shiftLeft, ← Nat.shiftLeft_add,
        show j * w + w = (j + 1) * w from (Nat.succ_mul j w).symm, Nat.or_assoc]

theorem lor_self_lor (a b : Nat) : a ||| (a ||| b) = a ||| b := by
  rw [← Nat.or_assoc, Nat.or_self]

theorem specTiling_absorb (v w : Nat) (j : Nat) :
    specTiling v w j ||| specTiling v w (j + 1) = specTiling v w (j + 1) := by
  rw [show specTiling v w (j + 1) = specTiling v w j ||| v <<< (j * w) from rfl]
  exact lor_self_lor _ _

theorem specTiling_step (v w j : Nat) :
    specTiling v w (j + 1) ||| (specTiling v w (j + 1)) <<< w =
      specTiling v w (j + 2) := by
  nth_rewrite 1 [specTiling_prepend v w j]
  rw [Nat.or_assoc, ← lor_shiftLeft, specTiling_absorb, ← specTiling_prepend]

theorem specTiling_lt (v w : Nat) (hv : v < 2 ^ w) :
    ∀ j, specTiling v w j < 2 ^ (j * w) := by
  intro j
  induction j with
  | zero => simp [specTiling]
  | succ j ih =>
      rw [show specTiling v w (j + 1) = specTiling v w j ||| v <<< (j * w) from rfl]
      apply Nat.or_lt_two_pow
      · exact lt_of_lt_of_le ih
          (Nat.pow_le_pow_right (by norm_num) (Nat.mul_le_mul_right w (Nat.le_succ j)))
      · rw [Nat.shiftLeft_eq]
        have h1 : v * 2 ^ (j * w) < 2 ^ w * 2 ^ (j * w) :=
          (Nat.mul_lt_mul_right (Nat.two_pow_pos (j * w))).mpr hv
        have h2 : (2:Nat) ^ w * 2 ^ (j * w) = 2 ^ ((j + 1) * w) := by
          rw [Nat.succ_mul, pow_add, Nat.mul_comm]
        omega

theorem replicateLoop_tiling (v w : Nat) :
    ∀ i j, 1 ≤ j →
      replicateLoop w (specTiling v w j % 2 ^ 64) i = specTiling v w (j + i) % 2 ^ 64 := by
  intro i
  induction i with
  | zero => intro j _; rfl
  | succ i ih =>
      intro j hj
      have hunfold : replicateLoop w (specTiling v w j % 2 ^ 64) (i + 1) =
          replicateLoop w
            ((specTiling v w j % 2 ^ 64) |||
              (((specTiling v w j % 2 ^ 64) <<< w) % 2 ^ 64)) i := rfl
      have hstep : (specTiling v w j % 2 ^ 64) |||
          (((specTiling v w j % 2 ^ 64) <<< w) % 2 ^ 64) =
          specTiling v w (j + 1) % 2 ^ 64 := by
        rw [shiftLeft_mod_mod, ← lor_mod_two_pow]
        obtain ⟨k, rfl⟩ : ∃ k, j = k + 1 := ⟨j - 1, by omega⟩
        rw [specTiling_step]
      rw [hunfold, hstep, ih (j + 1) (by omega),
        show j + 1 + i = j + (i + 1) from by omega]

theorem replicate_eq_tiling_mod (d : Dynamic) (count : Nat) (hI : Inv d)
    (hc : 1 ≤ count) :
    replicate d count = some (specTiling d.val d.bits count % 2 ^ 64) := by
  obtain ⟨h1, h8, hv⟩ := hI
  unfold replicate
  rw [if_neg (by omega)]
  congr 1
  have hlt64 : d.val < 2 ^ 64 := by
    have : (2:Nat) ^ d.bits ≤ 2 ^ 8 := Nat.pow_le_pow_right (by norm_num) h8
    have h256 : (2:Nat) ^ 8 = 256 := by norm_num
    have h64 : (256:Nat) < 2 ^ 64 := by norm_num
    omega
  have hvM : d.val = specTiling d.val d.bits 1 % 2 ^ 64 := by
    rw [specTiling_one, Nat.mod_eq_of_lt hlt64]
  conv_lhs => rw [hvM]
  rw [replicateLoop_tiling d.val d.bits (count - 1) 1 (by omega),
    show 1 + (count - 1) = count from by omega]

/-! ### Claim C1: the end-to-end decode scenario -/

/-- Claim C1: with imm_n = 0 (width 1), imms = 0b110000 (width 6),
immr = 0b000001 (width 6), immediate flag true and register size 64, the
bitmask decode completes without failure and its working mask equals
0x8080808080808080. -/
theorem decode_bitmask_example :
    (do
      let a ← Dynamic.new 0 1
      let s ← Dynamic.new 0b110000 6
      let r ← Dynamic.new 0b000001 6
      decode_bitmask a s r true 64).map Prod.fst =
      some 0x8080808080808080 := by decide

/-! ### Claim C4: truncate -/

/-- Claim C4 counterexample: truncate does not succeed for every width
argument; at width 0 the inner ones/new construction fails. -/
theorem truncate_zero_width_fails : Dynamic.truncate 0 0 = none := by decide

/-- Claim C4 (amended): for every magnitude below 256 and every width in
[1, 8], truncate succeeds and returns the value of that width whose
magnitude is the input masked to its low w bits; it recovers the input
exactly when the input fits, and the result has no set bit at or above
the width.  (For widths outside [1, 8] truncate fails.) -/
theorem truncate_amended : ∀ v < 256, ∀ w, 1 ≤ w → w ≤ 8 →
    Dynamic.truncate v w = some ⟨v &&& (2 ^ w - 1), w⟩ ∧
    (v < 2 ^ w → v &&& (2 ^ w - 1) = v) ∧
    (v &&& (2 ^ w - 1)) < 2 ^ w := by
  intro v _hv w h1 h8
  refine ⟨?_, ?_, ?_⟩
  · rw [truncate_eq, if_pos ⟨h1, h8⟩, Nat.and_comm]
  · intro hlt
    exact Nat.and_pow_two_sub_one_of_lt_two_pow hlt
  · rw [Nat.and_pow_two_sub_one_eq_mod]
    exact Nat.mod_lt _ (Nat.two_pow_pos w)

/-- Witness for the amended C4 at magnitude 0b10110101 and width 3. -/
theorem truncate_amended_witness :
    Dynamic.truncate 0b10110101 3 = some ⟨0b10110101 &&& (2 ^ 3 - 1), 3⟩ ∧
    (0b10110101 < 2 ^ 3 → 0b10110101 &&& (2 ^ 3 - 1) = 0b10110101) ∧
    (0b10110101 &&& (2 ^ 3 - 1)) < 2 ^ 3 :=
  truncate_amended 0b10110101 (by decide) 3 (by decide) (by decide)

/-! ### Claim C6: new -/

/-- Claim C6: new succeeds exactly when the width is in [1, 8] and the
magnitude has no set bit at or above the width, and then returns exactly
that magnitude and width. -/
theorem new_succeeds_iff : ∀ v < 256, ∀ w,
    ((Dynamic.new v w).isSome = true ↔ 1 ≤ w ∧ w ≤ 8 ∧ v < 2 ^ w) ∧
    (∀ d, Dynamic.new v w = some d → d = ⟨v, w⟩) := by
  intro v hv w
  constructor
  · rw [new_eq v w hv]
    split
    · exact iff_of_true rfl ‹_›
    · exact iff_of_false (by simp) ‹_›
  · intro d h
    exact (new_inv v w hv d h).2

/-- Witness for C6 at magnitude 5 and width 3. -/
theorem new_succeeds_iff_witness :
    ((Dynamic.new 5 3).isSome = true ↔ 1 ≤ 3 ∧ 3 ≤ 8 ∧ 5 < 2 ^ 3) ∧
    (∀ d, Dynamic.new 5 3 = some d → d = ⟨5, 3⟩) :=
  new_succeeds_iff 5 (by decide) 3

/-! ### Claim C10: replicate with count 0 -/

/-- Claim C10: replicate with count 0 does not fail and returns the raw
magnitude, the same result as count 1; it returns 0 only when the
magnitude is 0. -/
theorem replicate_zero_count : ∀ d : Dynamic,
    replicate d 0 = some d.val ∧ replicate d 0 = replicate d 1 ∧
    (d.val ≠ 0 → replicate d 0 ≠ some 0) := by
  intro d
  have h0 : replicate d 0 = some d.val := by
    unfold replicate
    rw [if_neg (by omega)]
    rfl
  have h1 : replicate d 1 = some d.val := by
    unfold replicate
    rw [if_neg (by omega)]
    rfl
  refine ⟨h0, h0.trans h1.symm, fun hne => ?_⟩
  rw [h0]
  simp [hne]

/-- Witness for C10 at the 3-bit value 5. -/
theorem replicate_zero_count_witness : replicate ⟨5, 3⟩ 0 ≠ some 0 :=
  (replicate_zero_count ⟨5, 3⟩).2.2 (by decide)

/-! ### Claim C2: invariant preservation -/

/-- Claim C2 counterexample: zero_extend accepts a new width of 9 on a
valid 1-bit value and produces a live value whose width exceeds 8,
violating invariant 1. -/
theorem zero_extend_breaks_invariant :
    Dynamic.new 0 1 = some ⟨0, 1⟩ ∧ Inv ⟨0, 1⟩ ∧
    Dynamic.zero_extend ⟨0, 1⟩ 9 = some ⟨0, 9⟩ ∧ ¬ Inv ⟨0, 9⟩ := by decide

/-- Claim C2 (amended): every value produced by new, truncate or ones with
accepted arguments, or by any operation applied to values satisfying the
invariants with arguments the operation accepts, satisfies both invariants
— except that zero_extend must additionally be restricted to new widths
of at most 8 (the code does not check this bound). -/
theorem invariants_preserved :
    (∀ v w, v < 256 → ∀ d, Dynamic.new v w = some d → Inv d) ∧
    (∀ v w, ∀ d, Dynamic.truncate v w = some d → Inv d) ∧
    (∀ w, ∀ d, Dynamic.ones w = some d → Inv d) ∧
    (∀ a, Inv a → ∀ d, Dynamic.not a = some d → Inv d) ∧
    (∀ a b, Inv a → Inv b → Inv (Dynamic.bitand a b)) ∧
    (∀ a, Inv a → ∀ r, Inv (Dynamic.bitand_u8 a r)) ∧
    (∀ a b, Inv a → Inv b → Inv (Dynamic.bitor a b)) ∧
    (∀ a b, Inv a → Inv b → ∀ d, Dynamic.sub a b = some d → Inv d) ∧
    (∀ a nw, Inv a → ∀ d, Dynamic.sign_extend a nw = some d → Inv d) ∧
    (∀ a nw, Inv a → nw ≤ 8 → ∀ d, Dynamic.zero_extend a nw = some d → Inv d) ∧
    (∀ a b, Inv a → Inv b → ∀ d, Dynamic.concat a b = some d → Inv d) ∧
    (∀ a n, Inv a → ∀ d, Dynamic.rotate_right a n = some d → Inv d) :=
  ⟨fun v w hv d h => (new_inv v w hv d h).1,
   fun v w d h => truncate_inv v w d h,
   fun w d h => ones_inv w d h,
   fun a _ d h => not_inv a d h,
   fun a b ha hb => bitand_inv a b ha hb,
   fun a ha r => bitand_u8_inv a r ha,
   fun a b ha hb => bitor_inv a b ha hb,
   fun a b _ _ d h => sub_inv a b d h,
   fun a nw _ d h => sign_extend_inv a nw d h,
   fun a nw ha h8 d h => zero_extend_inv a nw ha h8 d h,
   fun a b ha hb d h => concat_inv a b ha hb d h,
   fun a n _ d h => rotate_right_inv a n d h⟩

/-- Witness for the amended C2: the OR of two valid values is valid. -/
theorem invariants_preserved_witness : Inv (Dynamic.bitor ⟨5, 3⟩ ⟨1, 2⟩) :=
  invariants_preserved.2.2.2.2.2.2.1 ⟨5, 3⟩ ⟨1, 2⟩ (by decide) (by decide)

/-! ### Claim C7: subtraction -/

theorem sub_eq (a b : Dynamic) (ha : Inv a) (hb : Inv b) (hw : a.bits = b.bits) :
    Dynamic.sub a b = some ⟨(a.val + 2 ^ a.bits - b.val) % 2 ^ a.bits, a.bits⟩ := by
  obtain ⟨h1, h8, hv⟩ := ha
  obtain ⟨hb1, hb8, hvb⟩ := hb
  unfold Dynamic.sub
  rw [if_pos hw, truncate_eq_mod _ _ h1 h8]
  have hdvd : (2 : Nat) ^ a.bits ∣ 256 := by
    rw [show (256 : Nat) = 2 ^ 8 from by norm_num]
    exact pow_dvd_pow 2 h8
  have hbA : b.val < 2 ^ a.bits := by rw [hw]; exact hvb
  have key : (a.val + 256 - b.val) % 256 % 2 ^ a.bits =
      (a.val + 2 ^ a.bits - b.val) % 2 ^ a.bits := by
    rw [Nat.mod_mod_of_dvd _ hdvd]
    obtain ⟨c, hc⟩ : (2 : Nat) ^ a.bits ∣ 256 - 2 ^ a.bits :=
      Nat.dvd_sub' hdvd dvd_rfl
    have hle : (2 : Nat) ^ a.bits ≤ 256 := Nat.le_of_dvd (by norm_num) hdvd
    rw [show a.val + 256 - b.val = a.val + 2 ^ a.bits - b.val + 2 ^ a.bits * c from
      by omega, Nat.add_mul_mod_self_left]
  rw [key]

/-- Claim C7: subtraction fails on mismatched widths; on matching width w
it returns the value of width w whose magnitude is the wrapped difference
modulo 2 to the w. -/
theorem sub_spec :
    (∀ a b : Dynamic, Inv a → Inv b → a.bits = b.bits →
      Dynamic.sub a b = some ⟨(a.val + 2 ^ a.bits - b.val) % 2 ^ a.bits, a.bits⟩) ∧
    (∀ a b : Dynamic, a.bits ≠ b.bits → Dynamic.sub a b = none) := by
  constructor
  · exact sub_eq
  · intro a b h
    unfold Dynamic.sub
    rw [if_neg h]

/-- Witness for C7: 3 minus 5 at width 4 is 14. -/
theorem sub_spec_witness :
    Dynamic.sub ⟨3, 4⟩ ⟨5, 4⟩ = some ⟨(3 + 2 ^ 4 - 5) % 2 ^ 4, 4⟩ :=
  sub_spec.1 ⟨3, 4⟩ ⟨5, 4⟩ (by decide) (by decide) rfl

/-! ### Claim C3: sign extension -/

set_option maxRecDepth 1000000 in
set_option synthInstance.maxSize 5000 in
set_option synthInstance.maxHeartbeats 2000000 in
set_option maxHeartbeats 4000000 in
theorem sign_extend_core : ∀ w < 9, ∀ nw < 9, ∀ v < 2 ^ w, 1 ≤ w → w ≤ nw →
    Dynamic.sign_extend ⟨v, w⟩ nw =
      some ⟨if v.testBit (w - 1) then v + (2 ^ nw - 2 ^ w) else v, nw⟩ := by decide!

set_option maxRecDepth 1000000 in
set_option synthInstance.maxSize 5000 in
set_option synthInstance.maxHeartbeats 2000000 in
set_option maxHeartbeats 4000000 in
theorem sign_extend_bits_core : ∀ w < 9, ∀ nw < 9, ∀ v < 2 ^ w, 1 ≤ w → w ≤ nw →
    (∀ i < 8, i < w → (v + (2 ^ nw - 2 ^ w)).testBit i = v.testBit i) ∧
    (∀ i < 8, w ≤ i → i < nw → (v + (2 ^ nw - 2 ^ w)).testBit i = true) := by decide!

/-- Claim C3: sign_extend to a wider legal width succeeds and propagates
the sign bit: with the sign bit set the result keeps the low bits and has
ones from the old width up to the new width; with the sign bit clear the
magnitude is unchanged. -/
theorem sign_extend_correct : ∀ d : Dynamic, ∀ nw, Inv d → 1 ≤ nw → nw ≤ 8 →
    d.bits ≤ nw →
    ∃ e, Dynamic.sign_extend d nw = some e ∧ e.bits = nw ∧ Inv e ∧
      (∀ i < d.bits, e.val.testBit i = d.val.testBit i) ∧
      (d.val.testBit (d.bits - 1) = true →
        ∀ i, d.bits ≤ i → i < nw → e.val.testBit i = true) ∧
      (d.val.testBit (d.bits - 1) = false → e.val = d.val) := by
  intro d nw hI hn1 hn8 hle
  obtain ⟨v, w⟩ := d
  obtain ⟨h1, h8, hv⟩ := hI
  dsimp only at h1 h8 hv hle ⊢
  have hw9 : w < 9 := by omega
  have hnw9 : nw < 9 := by omega
  have hcore := sign_extend_core w hw9 nw hnw9 v hv h1 hle
  have hbits := sign_extend_bits_core w hw9 nw hnw9 v hv h1 hle
  have hpow : (2 : Nat) ^ w ≤ 2 ^ nw := Nat.pow_le_pow_right (by norm_num) hle
  cases htb : v.testBit (w - 1)
  case true =>
    rw [if_pos htb] at hcore
    refine ⟨⟨v + (2 ^ nw - 2 ^ w), nw⟩, hcore, rfl,
      ⟨by show 1 ≤ nw; omega, by show nw ≤ 8; omega,
        by show v + (2 ^ nw - 2 ^ w) < 2 ^ nw; omega⟩, ?_, ?_, ?_⟩
    · intro i hi
      exact hbits.1 i (by omega) hi
    · intro _ i hwi hinw
      exact hbits.2 i (by omega) hwi hinw
    · intro hfalse
      exact Bool.noConfusion hfalse
  case false =>
    rw [if_neg (by simp [htb])] at hcore
    refine ⟨⟨v, nw⟩, hcore, rfl,
      ⟨by show 1 ≤ nw; omega, by show nw ≤ 8; omega,
        by show v < 2 ^ nw; omega⟩, ?_, ?_, ?_⟩
    · intro i _
      rfl
    · intro htrue
      exact Bool.noConfusion htrue
    · intro _
      rfl

/-- Witness for C3: the 3-bit value 0b100 sign-extended to 5 bits. -/
theorem sign_extend_correct_witness :
    ∃ e, Dynamic.sign_extend ⟨4, 3⟩ 5 = some e ∧ e.bits = 5 ∧ Inv e ∧
      (∀ i < (3:Nat), e.val.testBit i = (4:Nat).testBit i) ∧
      ((4:Nat).testBit 2 = true → ∀ i, 3 ≤ i → i < 5 → e.val.testBit i = true) ∧
      ((4:Nat).testBit 2 = false → e.val = 4) :=
  sign_extend_correct ⟨4, 3⟩ 5 (by decide) (by decide) (by decide) (by decide)

/-! ### Claim C8: rotate_right -/

set_option maxRecDepth 1000000 in
set_option synthInstance.maxSize 5000 in
set_option synthInstance.maxHeartbeats 2000000 in
set_option maxHeartbeats 4000000 in
theorem rotate_core : ∀ w < 9, 1 ≤ w → ∀ v < 2 ^ w, ∀ r < w,
    Dynamic.rotate_right ⟨v, w⟩ r =
      some ⟨v >>> r + (v % 2 ^ r) * 2 ^ (w - r), w⟩ ∧
    v >>> r + (v % 2 ^ r) * 2 ^ (w - r) < 2 ^ w ∧
    ∀ i < 8, i < w →
      (v >>> r + (v % 2 ^ r) * 2 ^ (w - r)).testBit i =
        v.testBit ((i + r) % w) := by decide!

theorem rotate_right_mod (d : Dynamic) (a : Nat) :
    Dynamic.rotate_right d a = Dynamic.rotate_right d (a % d.bits) := by
  unfold Dynamic.rotate_right
  rw [Nat.mod_mod_of_dvd a (dvd_refl d.bits)]

/-- Claim C8: rotate_right reduces the amount modulo the width and
circularly rotates the low width bits right by it; rotating by a multiple
of the width is the identity, and the three concrete examples hold. -/
theorem rotate_right_spec :
    (∀ d : Dynamic, ∀ a, Inv d → ∃ e, Dynamic.rotate_right d a = some e ∧
      e.bits = d.bits ∧ Inv e ∧
      ∀ i < d.bits, e.val.testBit i = d.val.testBit ((i + a) % d.bits)) ∧
    (∀ d : Dynamic, ∀ a, Inv d → d.bits ∣ a → Dynamic.rotate_right d a = some d) ∧
    Dynamic.rotate_right ⟨0b101, 3⟩ 1 = some ⟨0b110, 3⟩ ∧
    Dynamic.rotate_right ⟨0b1001, 4⟩ 2 = some ⟨0b0110, 4⟩ ∧
    Dynamic.rotate_right ⟨0b11001, 5⟩ 3 = some ⟨0b00111, 5⟩ := by
  have main : ∀ d : Dynamic, ∀ a, Inv d → ∃ e, Dynamic.rotate_right d a = some e ∧
      e.bits = d.bits ∧ Inv e ∧
      ∀ i < d.bits, e.val.testBit i = d.val.testBit ((i + a) % d.bits) := by
    intro d a hI
    obtain ⟨v, w⟩ := d
    obtain ⟨h1, h8, hv⟩ := hI
    dsimp only at h1 h8 hv ⊢
    have hr : a % w < w := Nat.mod_lt _ (by omega)
    obtain ⟨heq, hlt, htb⟩ := rotate_core w (by omega) h1 v hv (a % w) hr
    rw [rotate_right_mod ⟨v, w⟩ a]
    dsimp only
    refine ⟨⟨v >>> (a % w) + (v % 2 ^ (a % w)) * 2 ^ (w - a % w), w⟩, heq, rfl,
      ⟨h1, h8, hlt⟩, ?_⟩
    intro i hi
    have hmod : (i + a) % w = (i + a % w) % w := by
      conv_lhs => rw [Nat.add_mod]
      conv_rhs => rw [Nat.add_mod]
      rw [Nat.mod_mod_of_dvd a (dvd_refl w)]
    rw [hmod]
    exact htb i (by omega) hi
  refine ⟨main, ?_, by decide, by decide, by decide⟩
  intro d a hI hdvd
  have hI2 := hI
  obtain ⟨h1, h8, hv⟩ := hI2
  have h0 : a % d.bits = 0 := Nat.mod_eq_zero_of_dvd hdvd
  rw [rotate_right_mod d a, h0]
  obtain ⟨v, w⟩ := d
  dsimp only at h1 h8 hv ⊢
  obtain ⟨heq, _, _⟩ := rotate_core w (by omega) h1 v hv 0 (by omega)
  have hval : v >>> 0 + v % 2 ^ 0 * 2 ^ (w - 0) = v := by
    rw [Nat.shiftRight_zero, Nat.pow_zero, Nat.mod_one, Nat.zero_mul, Nat.add_zero]
  rw [heq, hval]

/-- Witness for C8: rotating the 3-bit value 5 by 3 is the identity. -/
theorem rotate_right_spec_witness :
    Dynamic.rotate_right ⟨5, 3⟩ 3 = some ⟨5, 3⟩ :=
  rotate_right_spec.2.1 ⟨5, 3⟩ 3 (by decide) ⟨1, rfl⟩

/-! ### Claim C5: replicate past 64 bits -/

/-- Claim C5 counterexample: replicating the valid 8-bit value 255 nine
times covers 72 bits, yet replicate returns a value instead of failing. -/
theorem replicate_overflow_returns_value :
    Inv ⟨255, 8⟩ ∧ replicate ⟨255, 8⟩ 9 = some 18446744073709551615 ∧
    64 < 9 * 8 := by decide

/-- Claim C5 (amended): when count times width exceeds 64 on a valid
value, replicate does not fail; it returns the tiling truncated to the low
64 bits of the backing u64. -/
theorem replicate_overflow_amended : ∀ d : Dynamic, ∀ count, Inv d →
    1 ≤ count → 64 < count * d.bits →
    replicate d count = some (specTiling d.val d.bits count % 2 ^ 64) := by
  intro d count hI hc _
  exact replicate_eq_tiling_mod d count hI hc

/-- Witness for the amended C5 at the 8-bit value 255 and count 9. -/
theorem replicate_overflow_amended_witness :
    replicate ⟨255, 8⟩ 9 = some (specTiling 255 8 9 % 2 ^ 64) :=
  replicate_overflow_amended ⟨255, 8⟩ 9 (by decide) (by decide) (by decide)

/-! ### Claim C9: replicate within 64 bits -/

/-- Claim C9: for a valid value and a positive count fitting in 64 bits,
replicate returns exactly the OR of the magnitude shifted by i times the
width for i below count, including the two concrete 4-bit examples. -/
theorem replicate_tiling :
    (∀ d : Dynamic, ∀ count, Inv d → 1 ≤ count → count * d.bits ≤ 64 →
      replicate d count = some (specTiling d.val d.bits count)) ∧
    replicate ⟨0b1010, 4⟩ 3 = some 0b101010101010 ∧
    replicate ⟨0b1001, 4⟩ 4 = some 0b1001100110011001 := by
  refine ⟨?_, by decide, by decide⟩
  intro d count hI hc hle
  have h1 := specTiling_lt d.val d.bits hI.2.2 count
  have h2 : (2 : Nat) ^ (count * d.bits) ≤ 2 ^ 64 :=
    Nat.pow_le_pow_right (by norm_num) hle
  rw [replicate_eq_tiling_mod d count hI hc,
    Nat.mod_eq_of_lt (lt_of_lt_of_le h1 h2)]

/-- Witness for C9: three copies of the 4-bit pattern 0b1010. -/
theorem replicate_tiling_witness :
    replicate ⟨0b1010, 4⟩ 3 = some (specTiling 0b1010 4 3) :=
  replicate_tiling.1 ⟨0b1010, 4⟩ 3 (by decide) (by decide) (by decide)

end Cint
